import Mathlib

/-!
# Shallow embedding of `jax_elo/general.py`

A Bayesian rating engine for paired-competition data.  Each competitor has a
latent skill vector of length `L`; beliefs are Gaussian with a shared
covariance.  The per-match update is a single Newton-step Laplace
approximation; ratings are folded over a match history either by index
(`calculate_ratings_scan`) or by name (`calculate_ratings_history`), and
hyperparameters are fitted by minimising the negated total predictive
log-likelihood (`to_optimise`).

Machine floating-point numbers are modelled by an exact field `K`
(instantiated to `ℚ` or `ℝ` in concrete statements); array shapes are
type-level (`Fin L`, `Fin n`), and a concatenation of two length-`L` vectors
is indexed by `Fin L ⊕ Fin L`.  External numerical primitives from
`jax`/`ml_tools` (linear solve, triangular reconstruction, the
logistic-normal integral) are given explicit mathematical definitions,
documented at each definition.
-/

namespace JaxElo

open Matrix

/-- The `EloFunctions` namedtuple: the outcome-model capability set, opaque to
the core.  `Θ` is the type of the model parameters `theta`, `Y` the type of
the per-match outcome information, `S` the type of the shape summaries used
to parse a flat theta vector. -/
structure EloFunctions (K : Type) (L : ℕ) (Θ Y S : Type) where
  log_post_jac_x : (Fin L ⊕ Fin L → K) → (Fin L ⊕ Fin L → K) →
    Matrix (Fin L ⊕ Fin L) (Fin L ⊕ Fin L) K → (Fin L ⊕ Fin L → K) → Θ → Y →
    (Fin L ⊕ Fin L → K)
  log_post_hess_x : (Fin L ⊕ Fin L → K) → (Fin L ⊕ Fin L → K) →
    Matrix (Fin L ⊕ Fin L) (Fin L ⊕ Fin L) K → (Fin L ⊕ Fin L → K) → Θ → Y →
    Matrix (Fin L ⊕ Fin L) (Fin L ⊕ Fin L) K
  predictive_lik_fun : (Fin L ⊕ Fin L → K) → (Fin L ⊕ Fin L → K) →
    (Fin L ⊕ Fin L → K) → Matrix (Fin L ⊕ Fin L) (Fin L ⊕ Fin L) K → Θ → Y → K
  parse_theta_fun : List K → S → Θ
  win_prob_fun : (Fin L → K) → (Fin L → K) → (Fin L ⊕ Fin L → K) →
    Matrix (Fin L) (Fin L) K → K

/-- The `EloParams` namedtuple: outcome-model parameters `theta` together with
the shared prior covariance matrix `cov_mat`. -/
@[ext]
structure EloParams (K : Type) (L : ℕ) (Θ : Type) where
  theta : Θ
  cov_mat : Matrix (Fin L) (Fin L) K

/-- Models the external numerical primitive `jnp.linalg.solve` in Cramer form:
`A⁻¹ b = det(A)⁻¹ · adj(A) b`.  For invertible `A` this is the unique
solution of `A x = b`, which is the contract of the primitive. -/
def linalg_solve {K : Type} [Field K] {ι : Type} [Fintype ι] [DecidableEq ι]
    (A : Matrix ι ι K) (b : ι → K) : ι → K :=
  A.det⁻¹ • A.adjugate.mulVec b

/-- `calculate_update` from the source: the predictive likelihood of `y`
under the prior belief at `mu`, and the single Newton-step Laplace update
`mu + delta` with `delta = -solve(Hessian, Jacobian)`, Jacobian and Hessian
both evaluated at `mu`. -/
def calculate_update {K : Type} [Field K] {L : ℕ} {Θ Y S : Type}
    (mu : Fin L ⊕ Fin L → K) (cov_mat : Matrix (Fin L ⊕ Fin L) (Fin L ⊕ Fin L) K)
    (a : Fin L ⊕ Fin L → K) (y : Y) (elo_functions : EloFunctions K L Θ Y S)
    (elo_params : EloParams K L Θ) : (Fin L ⊕ Fin L → K) × K :=
  let lik := elo_functions.predictive_lik_fun mu mu a cov_mat elo_params.theta y
  let mode_jac := elo_functions.log_post_jac_x mu mu cov_mat a elo_params.theta y
  let mode_hess := elo_functions.log_post_hess_x mu mu cov_mat a elo_params.theta y
  let new_x := -(linalg_solve mode_hess mode_jac)
  (new_x + mu, lik)

/-- `concatenate_and_update` from the source: concatenate `mu1` and `mu2`
(indexed by `Fin L ⊕ Fin L`), build the block-diagonal covariance
`kron(eye 2, cov_mat)`, run `calculate_update`, and split the result back
into the two new means plus the likelihood. -/
def concatenate_and_update {K : Type} [Field K] {L : ℕ} {Θ Y S : Type}
    (mu1 mu2 : Fin L → K) (a : Fin L ⊕ Fin L → K) (y : Y)
    (elo_functions : EloFunctions K L Θ Y S) (elo_params : EloParams K L Θ) :
    (Fin L → K) × (Fin L → K) × K :=
  let mu := Sum.elim mu1 mu2
  let cov_full := Matrix.fromBlocks elo_params.cov_mat 0 0 elo_params.cov_mat
  let r := calculate_update mu cov_full a y elo_functions elo_params
  (r.1 ∘ Sum.inl, r.1 ∘ Sum.inr, r.2)

/-- One entry of the scanned arrays in `calculate_ratings_scan` /
one zipped tuple in `calculate_ratings_history`: the identity of the winner
and loser (an index, or a name for the history variant), the design vector
`a` of length `2L`, and the extra outcome information `y`. -/
structure MatchData (ι K : Type) (L : ℕ) (Y : Type) where
  winner : ι
  loser : ι
  a : Fin L ⊕ Fin L → K
  y : Y

/-- `update_ratings` from the source, the `lax.scan` step: read the winner's
and loser's rows of the carried ratings table, run `concatenate_and_update`,
write the two new means back into the same two rows (winner first, then
loser), and emit the likelihood. -/
def update_ratings {K : Type} [Field K] {n L : ℕ} {Θ Y S : Type}
    (carry : Fin n → Fin L → K) (x : MatchData (Fin n) K L Y)
    (elo_functions : EloFunctions K L Θ Y S) (elo_params : EloParams K L Θ) :
    (Fin n → Fin L → K) × K :=
  let r := concatenate_and_update (carry x.winner) (carry x.loser) x.a x.y
    elo_functions elo_params
  (Function.update (Function.update carry x.winner r.1) x.loser r.2.1, r.2.2)

/-- `jax.lax.scan`: fold a step function over a list, returning the final
carry together with the list of per-step outputs. -/
def scanl {C X O : Type} (f : C → X → C × O) : C → List X → C × List O
  | c, [] => (c, [])
  | c, x :: xs =>
    let r := f c x
    let rest := scanl f r.1 xs
    (rest.1, r.2 :: rest.2)

/-- `calculate_ratings_scan` from the source: scan `update_ratings` over the
match arrays starting from `init`, returning the final ratings table and the
sum of the per-match likelihoods. -/
def calculate_ratings_scan {K : Type} [Field K] {n L : ℕ} {Θ Y S : Type}
    (ms : List (MatchData (Fin n) K L Y))
    (elo_functions : EloFunctions K L Θ Y S) (elo_params : EloParams K L Θ)
    (init : Fin n → Fin L → K) : (Fin n → Fin L → K) × K :=
  let r := scanl (fun c m => update_ratings c m elo_functions elo_params) init ms
  (r.1, r.2.sum)

/-- `ratings_lik` from the source: the second component (the total
likelihood) of `calculate_ratings_scan`. -/
def ratings_lik {K : Type} [Field K] {n L : ℕ} {Θ Y S : Type}
    (ms : List (MatchData (Fin n) K L Y))
    (elo_functions : EloFunctions K L Θ Y S) (elo_params : EloParams K L Θ)
    (init : Fin n → Fin L → K) : K :=
  (calculate_ratings_scan ms elo_functions elo_params init).2

/-- One record appended to the history list by `calculate_ratings_history`:
winner and loser identity, their pre-update means, and the pre-update win
probability of the winner. -/
structure MatchRecord (α K : Type) (L : ℕ) where
  winner : α
  loser : α
  prior_mu_winner : Fin L → K
  prior_mu_loser : Fin L → K
  prior_win_prob : K

/-- Modelled from the spec: `compute_update` is called by
`calculate_ratings_history` (line 205 of `general.py`) but is neither defined
nor imported anywhere in the repository, so the call raises `NameError` at
runtime.  Spec §4.4 prescribes "the same per-match logic as 4.3", i.e. the
single-match update of §4.1 applied to the two concatenated means — exactly
the contract and signature of `concatenate_and_update`. -/
def compute_update {K : Type} [Field K] {L : ℕ} {Θ Y S : Type}
    (mu1 mu2 : Fin L → K) (a : Fin L ⊕ Fin L → K) (y : Y)
    (elo_functions : EloFunctions K L Θ Y S) (elo_params : EloParams K L Θ) :
    (Fin L → K) × (Fin L → K) × K :=
  concatenate_and_update mu1 mu2 a y elo_functions elo_params

/-- One iteration of the loop in `calculate_ratings_history`: look up the two
competitors' means in the name-keyed ratings mapping (the `defaultdict`
with all-zero default is modelled as a total function `α → Fin L → K`),
compute the prior win probability, run `compute_update`, append the
`MatchRecord`, and store the two new means under the same two names. -/
def history_step {K : Type} [Field K] {L : ℕ} {α Θ Y S : Type} [DecidableEq α]
    (elo_functions : EloFunctions K L Θ Y S) (elo_params : EloParams K L Θ)
    (st : (α → Fin L → K) × List (MatchRecord α K L))
    (m : MatchData α K L Y) : (α → Fin L → K) × List (MatchRecord α K L) :=
  let mu1 := st.1 m.winner
  let mu2 := st.1 m.loser
  let prior_win_prob := elo_functions.win_prob_fun mu1 mu2 m.a elo_params.cov_mat
  let r := compute_update mu1 mu2 m.a m.y elo_functions elo_params
  (Function.update (Function.update st.1 m.winner r.1) m.loser r.2.1,
    st.2 ++ [⟨m.winner, m.loser, mu1, mu2, prior_win_prob⟩])

/-- The loop of `calculate_ratings_history`, as a fold of `history_step`
over the zipped match data, carrying the name-keyed ratings mapping and the
history list. -/
def history_fold {K : Type} [Field K] {L : ℕ} {α Θ Y S : Type} [DecidableEq α]
    (ms : List (MatchData α K L Y)) (elo_functions : EloFunctions K L Θ Y S)
    (elo_params : EloParams K L Θ)
    (st : (α → Fin L → K) × List (MatchRecord α K L)) :
    (α → Fin L → K) × List (MatchRecord α K L) :=
  ms.foldl (history_step elo_functions elo_params) st

/-- `calculate_ratings_history` from the source: fold over the matches
starting from the all-zero `defaultdict` and an empty history, returning the
history list (the ratings mapping is internal state, exposed separately as
`history_final_ratings`). -/
def calculate_ratings_history {K : Type} [Field K] {L : ℕ} {α Θ Y S : Type}
    [DecidableEq α] (ms : List (MatchData α K L Y))
    (elo_functions : EloFunctions K L Θ Y S) (elo_params : EloParams K L Θ) :
    List (MatchRecord α K L) :=
  (history_fold ms elo_functions elo_params (fun _ _ => 0, [])).2

/-- The final state of the name-keyed ratings mapping built internally by
`calculate_ratings_history` (the `defaultdict` after the loop; names never
seen keep the all-zero default). -/
def history_final_ratings {K : Type} [Field K] {L : ℕ} {α Θ Y S : Type}
    [DecidableEq α] (ms : List (MatchData α K L Y))
    (elo_functions : EloFunctions K L Θ Y S) (elo_params : EloParams K L Θ) :
    α → Fin L → K :=
  (history_fold ms elo_functions elo_params (fun _ _ => 0, [])).1

/-- The external `ml_tools` primitive `num_triangular_elts`: the number
`n (n + 1) / 2` of entries on or below the diagonal of an `n × n` matrix. -/
def num_triangular_elts (n : ℕ) : ℕ :=
  n * (n + 1) / 2

/-- The flat list of the entries on or below the diagonal of a matrix (given
as a total function on `ℕ × ℕ`), in `numpy.tril_indices` order: row-major,
`(0,0), (1,0), (1,1), (2,0), …`. -/
def tril_elts_list {K : Type} : ℕ → (ℕ → ℕ → K) → List K
  | 0, _ => []
  | n + 1, M => tril_elts_list n M ++ (List.range (n + 1)).map (fun j => M n j)

/-- A matrix `Matrix (Fin n) (Fin n) K`, extended to a total function on
`ℕ × ℕ` (zero outside the index range), so its lower-triangular entries can
be serialised by `tril_elts_list`. -/
def mat_fn {K : Type} [Zero K] {n : ℕ} (M : Matrix (Fin n) (Fin n) K) :
    ℕ → ℕ → K :=
  fun i j => if h : i < n ∧ j < n then M ⟨i, h.1⟩ ⟨j, h.2⟩ else 0

/-- `get_starting_elts` from the source extracts `L[tril_indices]` of
`L = jnp.linalg.cholesky(cov_mat)`.  The Cholesky decomposition is an
external primitive; here the factor is taken as the argument, and the
theorems characterise it by lower-triangularity and `C * Cᵀ = cov_mat`. -/
def get_starting_elts {K : Type} [Zero K] {n : ℕ}
    (chol : Matrix (Fin n) (Fin n) K) : List K :=
  tril_elts_list n (mat_fn chol)

/-- The lower-triangular matrix rebuilt from a flat list of triangular
entries (in `numpy.tril_indices` order): entry `(i, j)` with `j ≤ i` is the
list element at position `i (i + 1) / 2 + j`, entries above the diagonal are
zero. -/
def lower_tri_from_elts {K : Type} [Zero K] (n : ℕ) (elts : List K) :
    Matrix (Fin n) (Fin n) K :=
  Matrix.of fun i j : Fin n =>
    if (j : ℕ) ≤ (i : ℕ) then elts.getD (num_triangular_elts i + j) 0 else 0

/-- The external `ml_tools` primitive `pos_def_mat_from_tri_elts`: rebuild
the lower-triangular factor `C` from the flat entries and return `C * Cᵀ`. -/
def pos_def_mat_from_tri_elts {K : Type} [Zero K] [Mul K] [AddCommMonoid K]
    (elts : List K) (n : ℕ) : Matrix (Fin n) (Fin n) K :=
  lower_tri_from_elts n elts * (lower_tri_from_elts n elts)ᵀ

/-- `update_params` from the source: rebuild `EloParams` from the flat
optimisation vector `x` — the first `num_triangular_elts L` entries give the
covariance via `pos_def_mat_from_tri_elts`, the rest are parsed into `theta`
by the outcome model.  `params.cov_mat.shape[0]` is the type-level dimension
`L`; the `verbose` printing is I/O and is dropped. -/
def update_params {K : Type} [Field K] {L : ℕ} {Θ Y S : Type} (x : List K)
    (params : EloParams K L Θ) (functions : EloFunctions K L Θ Y S)
    (summaries : S) : EloParams K L Θ :=
  let n_latent := L
  let cov_mat := pos_def_mat_from_tri_elts (x.take (num_triangular_elts n_latent)) n_latent
  let theta := functions.parse_theta_fun (x.drop (num_triangular_elts n_latent)) summaries
  ⟨theta, cov_mat⟩

/-- `to_optimise` from the source: rebuild the parameters from `x`, run the
scan from the all-zero `n_players × L` ratings table, and return the negated
total likelihood. -/
def to_optimise {K : Type} [Field K] {n_players L : ℕ} {Θ Y S : Type}
    (x : List K) (start_params : EloParams K L Θ)
    (functions : EloFunctions K L Θ Y S)
    (ms : List (MatchData (Fin n_players) K L Y)) (summaries : S) : K :=
  let params := update_params x start_params functions summaries
  let init : Fin n_players → Fin L → K := fun _ _ => 0
  let cur_lik := ratings_lik ms functions params init;
  -cur_lik

/-- The logistic function `1 / (1 + exp (-x))` (`scipy.special.expit`). -/
noncomputable def logistic (x : ℝ) : ℝ :=
  1 / (1 + Real.exp (-x))

/-- Modelled from the spec: the external `ml_tools` primitive
`logistic_normal_integral_approx`, the closed-form moment-matching
approximation of `∫ logistic z · N(z; m, v) dz` (MacKay):
`logistic (m / sqrt (1 + π v / 8))`. -/
noncomputable def logistic_normal_integral_approx (m v : ℝ) : ℝ :=
  logistic (m / Real.sqrt (1 + Real.pi * v / 8))

/-- The external `ml_tools` primitive `weighted_sum`: the mean `aᵀ μ` and
variance `aᵀ Σ a` of the scalar `aᵀ x` under `x ∼ N(μ, Σ)`. -/
def weighted_sum {ι : Type} [Fintype ι] (mu : ι → ℝ) (cov : Matrix ι ι ℝ)
    (a : ι → ℝ) : ℝ × ℝ :=
  (a ⬝ᵥ mu, a ⬝ᵥ cov.mulVec a)

/-- `calculate_win_prob` from the source: concatenate the two means, build
the block-diagonal covariance `kron(eye 2, cov_mat)`, take the latent mean
and variance via `weighted_sum`, and map through the logistic-normal
integral approximation (scaled by the pre-factor). -/
noncomputable def calculate_win_prob {L : ℕ} (mu1 mu2 : Fin L → ℝ)
    (a : Fin L ⊕ Fin L → ℝ) (cov_mat : Matrix (Fin L) (Fin L) ℝ)
    (pre_factor : ℝ := 1) : ℝ :=
  let full_mu := Sum.elim mu1 mu2
  let full_cov_mat := Matrix.fromBlocks cov_mat 0 0 cov_mat
  let r := weighted_sum full_mu full_cov_mat a
  logistic_normal_integral_approx (pre_factor * r.1) (pre_factor ^ 2 * r.2)

/-- Translate a name-keyed match into an index-keyed match along a
name-to-index assignment `idx` (the "equivalent index assignment" relating
the history builder to the fixed-index scan). -/
def match_map {α ι K : Type} {L : ℕ} {Y : Type} (idx : α → ι)
    (m : MatchData α K L Y) : MatchData ι K L Y :=
  ⟨idx m.winner, idx m.loser, m.a, m.y⟩

/-- A concrete outcome-model capability set over `ℚ` with `L = 1`, used to
instantiate the theorems at concrete inputs: identity Hessian, the design
vector as Jacobian, constant predictive likelihood, trivial theta. -/
def exFuns : EloFunctions ℚ 1 Unit Unit Unit where
  log_post_jac_x := fun _ _ _ a _ _ => a
  log_post_hess_x := fun _ _ _ _ _ _ => 1
  predictive_lik_fun := fun _ _ _ _ _ _ => 1
  parse_theta_fun := fun _ _ => ()
  win_prob_fun := fun _ _ _ _ => 0

/-- Concrete parameters over `ℚ` with `L = 1`: trivial theta, unit shared
covariance. -/
def exParams : EloParams ℚ 1 Unit :=
  ⟨(), 1⟩

/-- The antisymmetric design vector `(1, -1)` for `L = 1`. -/
def exA : Fin 1 ⊕ Fin 1 → ℚ :=
  Sum.elim (fun _ => 1) (fun _ => -1)

/-- The three-match history of the spec's acceptance test: A beats B, B
beats C, A beats C, with names encoded as `Fin 3` (A = 0, B = 1, C = 2). -/
def exMatches : List (MatchData (Fin 3) ℚ 1 Unit) :=
  [⟨0, 1, exA, ()⟩, ⟨1, 2, exA, ()⟩, ⟨0, 2, exA, ()⟩]

section Lemmas

variable {K : Type} [Field K]

/-- The final carry of `scanl` is the left fold of the step's first
component. -/
theorem scanl_fst {C X O : Type} (f : C → X → C × O) :
    ∀ (xs : List X) (c : C), (scanl f c xs).1 = xs.foldl (fun c' x => (f c' x).1) c
  | [], _ => rfl
  | x :: xs, c => by
    simp only [scanl, List.foldl_cons]
    exact scanl_fst f xs (f c x).1

/-- The ratings table returned by `calculate_ratings_scan` is the left fold
of the table component of `update_ratings`. -/
theorem calculate_ratings_scan_fst {n L : ℕ} {Θ Y S : Type}
    (ms : List (MatchData (Fin n) K L Y)) (f : EloFunctions K L Θ Y S)
    (p : EloParams K L Θ) (init : Fin n → Fin L → K) :
    (calculate_ratings_scan ms f p init).1
      = ms.foldl (fun c m => (update_ratings c m f p).1) init :=
  scanl_fst _ ms init

/-- For invertible `A`, `linalg_solve A b` solves `A x = b`. -/
theorem linalg_solve_mulVec {ι : Type} [Fintype ι] [DecidableEq ι]
    (A : Matrix ι ι K) (b : ι → K) (h : IsUnit A.det) :
    A.mulVec (linalg_solve A b) = b := by
  unfold linalg_solve
  rw [Matrix.mulVec_smul, Matrix.mulVec_mulVec, Matrix.mul_adjugate,
    Matrix.smul_mulVec_assoc, Matrix.one_mulVec, smul_smul,
    inv_mul_cancel₀ h.ne_zero, one_smul]

/-- Triangular numbers grow by `n + 1` from `n` to `n + 1`. -/
theorem num_triangular_elts_succ (n : ℕ) :
    num_triangular_elts (n + 1) = num_triangular_elts n + (n + 1) := by
  unfold num_triangular_elts
  have h : (n + 1) * (n + 1 + 1) = n * (n + 1) + 2 * (n + 1) := by ring
  rw [h, Nat.add_mul_div_left _ _ (by norm_num)]

/-- `num_triangular_elts` is monotone. -/
theorem num_triangular_elts_mono {m n : ℕ} (h : m ≤ n) :
    num_triangular_elts m ≤ num_triangular_elts n :=
  Nat.div_le_div_right (Nat.mul_le_mul h (by omega))

/-- The length of the serialised triangle of an `n × n` matrix. -/
theorem tril_elts_list_length {R : Type} :
    ∀ (n : ℕ) (M : ℕ → ℕ → R),
      (tril_elts_list n M).length = num_triangular_elts n
  | 0, _ => rfl
  | n + 1, M => by
    simp only [tril_elts_list, List.length_append, List.length_map,
      List.length_range, tril_elts_list_length n M, num_triangular_elts_succ]

/-- Reading back entry `(i, j)` (with `j ≤ i < n`) of the serialised
triangle: it sits at flat position `i (i + 1) / 2 + j`. -/
theorem tril_elts_list_getD {R : Type} (d : R) :
    ∀ (n : ℕ) (M : ℕ → ℕ → R) (i j : ℕ), j ≤ i → i < n →
      (tril_elts_list n M).getD (num_triangular_elts i + j) d = M i j := by
  intro n
  induction n with
  | zero => intro M i j _ h; omega
  | succ n ih =>
    intro M i j hji hin
    simp only [tril_elts_list]
    by_cases hi : i < n
    · rw [List.getD_append]
      · exact ih M i j hji hi
      · rw [tril_elts_list_length]
        have h1 : num_triangular_elts i + j < num_triangular_elts (i + 1) := by
          rw [num_triangular_elts_succ]; omega
        exact lt_of_lt_of_le h1 (num_triangular_elts_mono hi)
    · have hi' : i = n := by omega
      subst hi'
      rw [List.getD_append_right _ _ _ _ (by rw [tril_elts_list_length]; omega),
        tril_elts_list_length, Nat.add_sub_cancel_left,
        List.getD_eq_getElem _ _ (by simpa using by omega : j < ((List.range (i + 1)).map fun j => M i j).length)]
      simp

/-- Rebuilding the lower-triangular matrix from the serialised triangle of a
lower-triangular matrix gives it back. -/
theorem lower_tri_roundtrip {n : ℕ} (C : Matrix (Fin n) (Fin n) K)
    (hlow : ∀ i j : Fin n, (i : ℕ) < (j : ℕ) → C i j = 0) :
    lower_tri_from_elts n (get_starting_elts C) = C := by
  ext i j
  simp only [lower_tri_from_elts, get_starting_elts, Matrix.of_apply]
  by_cases h : (j : ℕ) ≤ (i : ℕ)
  · rw [if_pos h, tril_elts_list_getD _ _ _ _ _ h i.isLt]
    simp [mat_fn, i.isLt, j.isLt]
  · rw [if_neg h]
    exact (hlow i j (by omega)).symm

/-- Two scan steps on matches with disjoint competitor sets commute on the
ratings table. -/
theorem update_ratings_comm {n L : ℕ} {Θ Y S : Type}
    (f : EloFunctions K L Θ Y S) (p : EloParams K L Θ)
    (t : Fin n → Fin L → K) (m1 m2 : MatchData (Fin n) K L Y)
    (h1 : m1.winner ≠ m2.winner) (h2 : m1.winner ≠ m2.loser)
    (h3 : m1.loser ≠ m2.winner) (h4 : m1.loser ≠ m2.loser) :
    (update_ratings (update_ratings t m1 f p).1 m2 f p).1
      = (update_ratings (update_ratings t m2 f p).1 m1 f p).1 := by
  simp only [update_ratings]
  rw [Function.update_noteq h3.symm, Function.update_noteq h1.symm,
    Function.update_noteq h4.symm, Function.update_noteq h2.symm,
    Function.update_noteq h2, Function.update_noteq h1,
    Function.update_noteq h4, Function.update_noteq h3,
    Function.update_comm h3, Function.update_comm h1,
    Function.update_comm h4, Function.update_comm h2]

/-- Invariant carrying the history builder and the fixed-index scan in
lockstep: if the name-keyed ratings mapping agrees with the index-keyed
table along an injective index assignment, it still does after folding any
match list. -/
theorem history_scan_invariant {n L : ℕ} {α Θ Y S : Type} [DecidableEq α]
    (f : EloFunctions K L Θ Y S) (p : EloParams K L Θ) (idx : α → Fin n)
    (hinj : Function.Injective idx) :
    ∀ (ms : List (MatchData α K L Y)) (h : α → Fin L → K)
      (recs : List (MatchRecord α K L)) (t : Fin n → Fin L → K),
      (∀ c, h c = t (idx c)) →
      ∀ c, (history_fold ms f p (h, recs)).1 c
        = (ms.map (match_map idx)).foldl (fun c' m => (update_ratings c' m f p).1) t (idx c) := by
  intro ms
  induction ms with
  | nil => intro h recs t hagree c; exact hagree c
  | cons m ms ih =>
    intro h recs t hagree c
    have hread : compute_update (h m.winner) (h m.loser) m.a m.y f p
        = concatenate_and_update (t (idx m.winner)) (t (idx m.loser)) m.a m.y f p := by
      rw [hagree m.winner, hagree m.loser]; rfl
    simp only [history_fold, List.foldl_cons, List.map_cons]
    refine ih _ _ _ ?_ c
    intro c'
    simp only [history_step, update_ratings, match_map, hread]
    by_cases hl : c' = m.loser
    · subst hl
      rw [Function.update_same, Function.update_same]
    · rw [Function.update_noteq hl, Function.update_noteq (fun hc => hl (hinj hc))]
      by_cases hw : c' = m.winner
      · subst hw
        rw [Function.update_same, Function.update_same]
      · rw [Function.update_noteq hw, Function.update_noteq (fun hc => hw (hinj hc))]
        exact hagree c'

end Lemmas

/-- The logistic function takes the value `1/2` exactly at `0`. -/
theorem logistic_eq_half_iff (x : ℝ) : logistic x = 1 / 2 ↔ x = 0 := by
  unfold logistic
  constructor
  · intro h
    have hpos : (0 : ℝ) < 1 + Real.exp (-x) := by positivity
    rw [div_eq_div_iff hpos.ne' (by norm_num : (2 : ℝ) ≠ 0)] at h
    have hexp : Real.exp (-x) = 1 := by linarith
    have := Real.exp_injective (hexp.trans Real.exp_zero.symm)
    linarith
  · rintro rfl
    rw [neg_zero, Real.exp_zero]
    norm_num

/-- C1: for every match history, capability set and parameters, the
incremental history builder (`calculate_ratings_history`, with its missing
`compute_update` modelled from the spec) and the fixed-index scan
(`calculate_ratings_scan`), both started from all-zero ratings and related
by an injective name-to-index assignment, yield identical final
per-competitor mean skill vectors. -/
theorem history_matches_scan {K : Type} [Field K] {n L : ℕ} {α Θ Y S : Type}
    [DecidableEq α] (ms : List (MatchData α K L Y))
    (f : EloFunctions K L Θ Y S) (p : EloParams K L Θ) (idx : α → Fin n)
    (hinj : Function.Injective idx) (c : α) :
    history_final_ratings ms f p c
      = (calculate_ratings_scan (ms.map (match_map idx)) f p (fun _ _ => 0)).1 (idx c) := by
  rw [calculate_ratings_scan_fst]
  unfold history_final_ratings
  exact history_scan_invariant f p idx hinj ms (fun _ _ => 0) [] (fun _ _ => 0)
    (fun _ => rfl) c

/-- Witness for C1 at the spec's 3-match acceptance test (A beats B, B beats
C, A beats C with `L = 1`, index assignment A→0, B→1, C→2), checking
competitor A. -/
theorem history_matches_scan_witness :
    Function.Injective (fun i : Fin 3 => i) ∧
      history_final_ratings exMatches exFuns exParams 0
        = (calculate_ratings_scan (exMatches.map (match_map (fun i : Fin 3 => i)))
            exFuns exParams (fun _ _ => 0)).1 ((fun i : Fin 3 => i) 0) :=
  ⟨fun _ _ h => h,
    history_matches_scan exMatches exFuns exParams (fun i => i) (fun _ _ h => h) 0⟩

/-- C2 counterexample: with identical means `(3)`, the symmetric
positive-definite covariance `1`, and the (non-antisymmetric) design vector
`a = (1, 1)`, `calculate_win_prob` does not return `1/2`. -/
theorem win_prob_equal_means_counterexample :
    (1 : Matrix (Fin 1) (Fin 1) ℝ).PosDef ∧
      calculate_win_prob (fun _ : Fin 1 => (3 : ℝ)) (fun _ : Fin 1 => (3 : ℝ))
        (fun _ : Fin 1 ⊕ Fin 1 => (1 : ℝ)) 1 1 ≠ 1 / 2 := by
  constructor
  · exact Matrix.PosDef.one
  · have hval : calculate_win_prob (fun _ : Fin 1 => (3 : ℝ)) (fun _ : Fin 1 => (3 : ℝ))
        (fun _ : Fin 1 ⊕ Fin 1 => (1 : ℝ)) 1 1
        = logistic (6 / Real.sqrt (1 + Real.pi * 2 / 8)) := by
      simp only [calculate_win_prob, weighted_sum, logistic_normal_integral_approx,
        Matrix.fromBlocks_one, Matrix.one_mulVec, dotProduct, Fintype.sum_sum_type,
        Fin.sum_univ_one, Sum.elim_inl, Sum.elim_inr]
      norm_num
    rw [hval]
    intro hcontra
    have hs : 0 < Real.sqrt (1 + Real.pi * 2 / 8) :=
      Real.sqrt_pos.mpr (by nlinarith [Real.pi_pos])
    exact div_ne_zero (by norm_num) (ne_of_gt hs) ((logistic_eq_half_iff _).mp hcontra)

/-- C2 (amended): with identical means, `calculate_win_prob` returns exactly
`1/2` whenever the design vector annihilates the concatenated mean,
`a ⬝ᵥ [mean, mean] = 0` — in particular for every antisymmetric design
`a = (w, -w)`; for general `a` the result is the logistic-normal
approximation at latent mean `a ⬝ᵥ [mean, mean]` and need not be `1/2`. -/
theorem win_prob_equal_means_amended {L : ℕ} (mu : Fin L → ℝ)
    (a : Fin L ⊕ Fin L → ℝ) (cov : Matrix (Fin L) (Fin L) ℝ) (pre : ℝ)
    (h : a ⬝ᵥ Sum.elim mu mu = 0) :
    calculate_win_prob mu mu a cov pre = 1 / 2 := by
  simp only [calculate_win_prob, weighted_sum, logistic_normal_integral_approx,
    h, mul_zero, zero_div]
  rw [logistic_eq_half_iff]

/-- Witness for C2 (amended) at `L = 1`, mean `(3)`, the antisymmetric design
`a = (1, -1)`, unit covariance and unit pre-factor. -/
theorem win_prob_equal_means_amended_witness :
    ((Sum.elim (fun _ => 1) (fun _ => -1) : Fin 1 ⊕ Fin 1 → ℝ) ⬝ᵥ
        Sum.elim (fun _ : Fin 1 => (3 : ℝ)) (fun _ : Fin 1 => (3 : ℝ)) = 0) ∧
      calculate_win_prob (fun _ : Fin 1 => (3 : ℝ)) (fun _ : Fin 1 => (3 : ℝ))
        (Sum.elim (fun _ => 1) (fun _ => -1)) 1 1 = 1 / 2 :=
  ⟨by norm_num [dotProduct, Fintype.sum_sum_type],
    win_prob_equal_means_amended _ _ _ _
      (by norm_num [dotProduct, Fintype.sum_sum_type])⟩

/-- C4: for every input with invertible Hessian at the linearization point
`mu`, `calculate_update` returns `(mu + delta, lik)` where `delta` solves
`Hessian · delta = -Jacobian` (both evaluated at `mu`) and `lik` is the
predictive likelihood of `y` under the prior belief at `mu`. -/
theorem calculate_update_newton_step {K : Type} [Field K] {L : ℕ} {Θ Y S : Type}
    (mu : Fin L ⊕ Fin L → K) (cov_mat : Matrix (Fin L ⊕ Fin L) (Fin L ⊕ Fin L) K)
    (a : Fin L ⊕ Fin L → K) (y : Y) (f : EloFunctions K L Θ Y S)
    (p : EloParams K L Θ)
    (h : IsUnit (f.log_post_hess_x mu mu cov_mat a p.theta y).det) :
    ∃ delta : Fin L ⊕ Fin L → K,
      (f.log_post_hess_x mu mu cov_mat a p.theta y).mulVec delta
          = -(f.log_post_jac_x mu mu cov_mat a p.theta y) ∧
        calculate_update mu cov_mat a y f p
          = (mu + delta, f.predictive_lik_fun mu mu a cov_mat p.theta y) := by
  refine ⟨-(linalg_solve (f.log_post_hess_x mu mu cov_mat a p.theta y)
    (f.log_post_jac_x mu mu cov_mat a p.theta y)), ?_, ?_⟩
  · rw [Matrix.mulVec_neg, linalg_solve_mulVec _ _ h]
  · simp only [calculate_update, Prod.mk.injEq]
    exact ⟨add_comm _ _, trivial⟩

/-- Witness for C4 at `L = 1` over `ℚ` with the identity Hessian of
`exFuns`, zero prior mean and design `(1, -1)`. -/
theorem calculate_update_newton_step_witness :
    IsUnit ((exFuns.log_post_hess_x (fun _ => 0) (fun _ => 0) 1 exA
        exParams.theta ()).det) ∧
      ∃ delta : Fin 1 ⊕ Fin 1 → ℚ,
        (exFuns.log_post_hess_x (fun _ => 0) (fun _ => 0) 1 exA
            exParams.theta ()).mulVec delta
            = -(exFuns.log_post_jac_x (fun _ => 0) (fun _ => 0) 1 exA
                exParams.theta ()) ∧
          calculate_update (fun _ => 0) 1 exA () exFuns exParams
            = ((fun _ => 0) + delta,
                exFuns.predictive_lik_fun (fun _ => 0) (fun _ => 0) exA 1
                  exParams.theta ()) :=
  ⟨by simp [exFuns, Matrix.det_one],
    calculate_update_newton_step _ _ _ _ _ _ (by simp [exFuns, Matrix.det_one])⟩

/-- C5: one step of the sequential fold writes back exactly the winner's and
loser's rows: every row with an index different from both is unchanged by
`update_ratings`. -/
theorem update_ratings_frame {K : Type} [Field K] {n L : ℕ} {Θ Y S : Type}
    (carry : Fin n → Fin L → K) (m : MatchData (Fin n) K L Y)
    (f : EloFunctions K L Θ Y S) (p : EloParams K L Θ) (j : Fin n)
    (hw : j ≠ m.winner) (hl : j ≠ m.loser) :
    (update_ratings carry m f p).1 j = carry j := by
  simp only [update_ratings]
  rw [Function.update_noteq hl, Function.update_noteq hw]

/-- Witness for C5: in a 3-competitor table, the row of competitor 2 is
untouched by a match between competitors 0 and 1. -/
theorem update_ratings_frame_witness :
    ((2 : Fin 3) ≠ (⟨0, 1, exA, ()⟩ : MatchData (Fin 3) ℚ 1 Unit).winner) ∧
      ((2 : Fin 3) ≠ (⟨0, 1, exA, ()⟩ : MatchData (Fin 3) ℚ 1 Unit).loser) ∧
      (update_ratings (fun i _ => (i : ℚ)) (⟨0, 1, exA, ()⟩ : MatchData (Fin 3) ℚ 1 Unit)
          exFuns exParams).1 2 = (fun (i : Fin 3) (_ : Fin 1) => (i : ℚ)) 2 :=
  ⟨by decide, by decide,
    update_ratings_frame _ _ _ _ _ (by decide) (by decide)⟩

/-- C6: swapping two adjacent matches whose competitor sets are disjoint
leaves the final ratings table returned by `calculate_ratings_scan`
unchanged. -/
theorem scan_swap_disjoint {K : Type} [Field K] {n L : ℕ} {Θ Y S : Type}
    (pre post : List (MatchData (Fin n) K L Y)) (m1 m2 : MatchData (Fin n) K L Y)
    (f : EloFunctions K L Θ Y S) (p : EloParams K L Θ) (init : Fin n → Fin L → K)
    (h1 : m1.winner ≠ m2.winner) (h2 : m1.winner ≠ m2.loser)
    (h3 : m1.loser ≠ m2.winner) (h4 : m1.loser ≠ m2.loser) :
    (calculate_ratings_scan (pre ++ m1 :: m2 :: post) f p init).1
      = (calculate_ratings_scan (pre ++ m2 :: m1 :: post) f p init).1 := by
  simp only [calculate_ratings_scan_fst, List.foldl_append, List.foldl_cons]
  rw [update_ratings_comm f p _ m1 m2 h1 h2 h3 h4]

/-- Witness for C6: the matches (0 beats 1) and (2 beats 3) in a
4-competitor table commute. -/
theorem scan_swap_disjoint_witness :
    ((⟨0, 1, exA, ()⟩ : MatchData (Fin 4) ℚ 1 Unit).winner
        ≠ (⟨2, 3, exA, ()⟩ : MatchData (Fin 4) ℚ 1 Unit).winner) ∧
      ((⟨0, 1, exA, ()⟩ : MatchData (Fin 4) ℚ 1 Unit).winner
        ≠ (⟨2, 3, exA, ()⟩ : MatchData (Fin 4) ℚ 1 Unit).loser) ∧
      ((⟨0, 1, exA, ()⟩ : MatchData (Fin 4) ℚ 1 Unit).loser
        ≠ (⟨2, 3, exA, ()⟩ : MatchData (Fin 4) ℚ 1 Unit).winner) ∧
      ((⟨0, 1, exA, ()⟩ : MatchData (Fin 4) ℚ 1 Unit).loser
        ≠ (⟨2, 3, exA, ()⟩ : MatchData (Fin 4) ℚ 1 Unit).loser) ∧
      (calculate_ratings_scan ([] ++ (⟨0, 1, exA, ()⟩ : MatchData (Fin 4) ℚ 1 Unit)
            :: (⟨2, 3, exA, ()⟩ : MatchData (Fin 4) ℚ 1 Unit) :: []) exFuns exParams
          (fun _ _ => 0)).1
        = (calculate_ratings_scan ([] ++ (⟨2, 3, exA, ()⟩ : MatchData (Fin 4) ℚ 1 Unit)
            :: (⟨0, 1, exA, ()⟩ : MatchData (Fin 4) ℚ 1 Unit) :: []) exFuns exParams
          (fun _ _ => 0)).1 :=
  ⟨by decide, by decide, by decide, by decide,
    scan_swap_disjoint [] [] _ _ exFuns exParams _
      (by decide) (by decide) (by decide) (by decide)⟩

/-- C7: the flatten/reconstruct round-trip is the identity: applying
`update_params` to the concatenation of `get_starting_elts` of the Cholesky
factor of `p.cov_mat` and the flattened theta (whose parse inverts the
flattening — the external outcome-model contract) reproduces `p` exactly,
covariance and theta alike. -/
theorem update_params_roundtrip {K : Type} [Field K] {L : ℕ} {Θ Y S : Type}
    (p : EloParams K L Θ) (C : Matrix (Fin L) (Fin L) K)
    (f : EloFunctions K L Θ Y S) (theta_flat : List K) (s : S)
    (hlow : ∀ i j : Fin L, (i : ℕ) < (j : ℕ) → C i j = 0)
    (hchol : C * Cᵀ = p.cov_mat)
    (hparse : f.parse_theta_fun theta_flat s = p.theta) :
    update_params (get_starting_elts C ++ theta_flat) p f s = p := by
  have hlen : (get_starting_elts C).length = num_triangular_elts L :=
    tril_elts_list_length L _
  simp only [update_params]
  rw [List.take_left' hlen, List.drop_left' hlen, hparse]
  unfold pos_def_mat_from_tri_elts
  rw [lower_tri_roundtrip C hlow, hchol]

/-- Witness for C7 at `L = 1` over `ℚ`: covariance `(4)`, Cholesky factor
`(2)`, empty theta flattening. -/
theorem update_params_roundtrip_witness :
    (∀ i j : Fin 1, (i : ℕ) < (j : ℕ) → (!![(2 : ℚ)]) i j = 0) ∧
      (!![(2 : ℚ)]) * (!![(2 : ℚ)])ᵀ = (⟨(), !![(4 : ℚ)]⟩ : EloParams ℚ 1 Unit).cov_mat ∧
      exFuns.parse_theta_fun [] () = (⟨(), !![(4 : ℚ)]⟩ : EloParams ℚ 1 Unit).theta ∧
      update_params (get_starting_elts !![(2 : ℚ)] ++ []) (⟨(), !![(4 : ℚ)]⟩ : EloParams ℚ 1 Unit)
          exFuns () = (⟨(), !![(4 : ℚ)]⟩ : EloParams ℚ 1 Unit) := by
  have hlow : ∀ i j : Fin 1, (i : ℕ) < (j : ℕ) → (!![(2 : ℚ)]) i j = 0 := by
    intro i j hij
    have hi := i.isLt
    have hj := j.isLt
    omega
  have hchol : (!![(2 : ℚ)]) * (!![(2 : ℚ)])ᵀ = !![(4 : ℚ)] := by
    ext i j
    fin_cases i
    fin_cases j
    simp [Matrix.mul_apply, Fin.sum_univ_one]
    norm_num
  exact ⟨hlow, hchol, rfl,
    update_params_roundtrip _ _ _ _ _ hlow hchol rfl⟩

/-- C8 counterexample: the all-zero flat vector reconstructs the zero `1 × 1`
covariance, which is not positive-definite — so positive-definiteness does
not hold across every reconstruction from flat vectors. -/
theorem pos_def_mat_zero_not_posdef :
    ¬ (pos_def_mat_from_tri_elts ([0] : List ℝ) 1).PosDef := by
  intro hpd
  have h0 : pos_def_mat_from_tri_elts ([0] : List ℝ) 1 = 0 := by
    ext i j
    simp [pos_def_mat_from_tri_elts, lower_tri_from_elts, Matrix.mul_apply,
      num_triangular_elts]
  rw [h0] at hpd
  have hne : (fun _ : Fin 1 => (1 : ℝ)) ≠ 0 := by
    intro hcon
    have := congrFun hcon 0
    norm_num at this
  have hx := hpd.2 (fun _ => 1) hne
  simp at hx

/-- C8 (amended): for every real flat input vector, the covariance matrix
reconstructed by `pos_def_mat_from_tri_elts` is symmetric and positive
semi-definite by construction (with no post-hoc check); it is positive
definite only when the rebuilt triangular factor is nonsingular, which
arbitrary flat vectors need not provide. -/
theorem pos_def_mat_from_tri_elts_psd (x : List ℝ) (n : ℕ) :
    (pos_def_mat_from_tri_elts x n).IsSymm ∧
      (pos_def_mat_from_tri_elts x n).PosSemidef := by
  constructor
  · unfold Matrix.IsSymm pos_def_mat_from_tri_elts
    rw [Matrix.transpose_mul, Matrix.transpose_transpose]
  · have h := Matrix.posSemidef_self_mul_conjTranspose (lower_tri_from_elts n x)
    rw [Matrix.conjTranspose_eq_transpose_of_trivial] at h
    exact h

/-- C9: the optimizer objective `to_optimise` equals the negation of the
total log-likelihood of `calculate_ratings_scan` over the full history,
started from the all-zero ratings table, with parameters reconstructed from
the flat vector. -/
theorem to_optimise_neg_total_lik {K : Type} [Field K] {n_players L : ℕ}
    {Θ Y S : Type} (x : List K) (p : EloParams K L Θ)
    (f : EloFunctions K L Θ Y S) (ms : List (MatchData (Fin n_players) K L Y))
    (s : S) :
    to_optimise x p f ms s
      = -((calculate_ratings_scan ms f (update_params x p f s) (fun _ _ => 0)).2) :=
  rfl

/-- C10: `update_params` and `to_optimise` are independent of the starting
parameter values — `start_params` contributes only the covariance dimension
(the type-level `L`), never its entries or theta. -/
theorem start_params_only_dimension {K : Type} [Field K] {n_players L : ℕ}
    {Θ Y S : Type} (x : List K) (p p' : EloParams K L Θ)
    (f : EloFunctions K L Θ Y S) (ms : List (MatchData (Fin n_players) K L Y))
    (s : S) :
    update_params x p f s = update_params x p' f s ∧
      to_optimise x p f ms s = to_optimise x p' f ms s :=
  ⟨rfl, rfl⟩

end JaxElo
